import Mathlib

/-!
Shallow embedding of `stack_pool.hpp`: a storage arena hosting many
singly-linked stacks in one backing `std::vector<node_t>`, with an
intrusive free list and index-based handles (`0` is the sentinel; handle
`x` names vector slot `x - 1`).

Machine integers of the unsigned index type `N` are modelled as `Nat`;
the only place where unsigned wraparound matters is `node(0)`, where the
source computes `pool[0 - 1] = pool[max(N)]`, always out of range, so the
model maps handle `0` to an out-of-range access directly.  The source
indexes the vector with the unchecked `operator[]`, so an out-of-range
access is undefined behavior; the model returns `none` there, marking
the edge of the source's defined behavior, not an error the source
guarantees.  Every theorem below either stays inside the in-bounds
domain — where the model agrees with the source exactly — or asserts a
`some` result; none reads a fail-fast guarantee from `none`.

The element type `T` stays a type parameter, as in the template.  The
constructor `node_t(N nxt)` leaves `value` default-initialized, so the
model requires `[Inhabited T]` and uses `default` there; the source
overwrites that value before it is ever read, and so does the model.
-/

/-- Embeds `struct node_t`: one stored value and the index of the next
node in the chain (`0` = sentinel). -/
structure Node (T : Type) where
  value : T
  next : Nat
  deriving Repr, DecidableEq

/-- Embeds the private state of `class stack_pool<T, N>`: the backing
vector `pool` (as a list of nodes plus its `capacity()`, since
`std::vector` tracks capacity separately from size) and the head index
`free_nodes` of the intrusive free list. -/
structure StackPool (T : Type) where
  pool : List (Node T)
  cap : Nat
  free_nodes : Nat
  deriving Repr, DecidableEq

namespace StackPool

variable {T : Type}

/-- Embeds the default constructor `stack_pool()`: empty vector (size and
capacity zero), `free_nodes = 0`. -/
def init : StackPool T := ⟨[], 0, 0⟩

/-- Embeds `end()`: the sentinel index, `stack_type(0)`. -/
def endIdx : Nat := 0

/-- Embeds `new_stack()`: returns `end()`. -/
def new_stack : Nat := endIdx

/-- Embeds `empty(x)`: true iff `x == end()`. -/
def empty (x : Nat) : Bool := x == endIdx

/-- Embeds `node(x) = pool[x - 1]`.  Handle `i + 1` reads slot `i`,
exactly as the source does in bounds.  Handle `0` wraps to
`pool[max(N)]` in the source and an out-of-range slot is past the
vector's end; both are undefined behavior under the source's unchecked
`operator[]`, and the model returns `none` there only to mark that
undefined domain. -/
def node? (s : StackPool T) (x : Nat) : Option (Node T) :=
  match x with
  | 0 => none
  | i + 1 => s.pool[i]?

/-- Embeds the accessor `value(x) = node(x).value`. -/
def value? (s : StackPool T) (x : Nat) : Option T :=
  (s.node? x).map Node.value

/-- Embeds the accessor `next(x) = node(x).next`. -/
def next? (s : StackPool T) (x : Nat) : Option Nat :=
  (s.node? x).map Node.next

/-- Embeds the store `value(x) = v` through the mutable accessor: fails
when `node(x)` is out of range, otherwise updates slot `x - 1` in place. -/
def setValue (s : StackPool T) (x : Nat) (v : T) : Option (StackPool T) :=
  match x with
  | 0 => none
  | i + 1 =>
    match s.pool[i]? with
    | none => none
    | some nd => some { s with pool := s.pool.set i { nd with value := v } }

/-- Embeds the store `next(x) = m` through the mutable accessor. -/
def setNext (s : StackPool T) (x : Nat) (m : Nat) : Option (StackPool T) :=
  match x with
  | 0 => none
  | i + 1 =>
    match s.pool[i]? with
    | none => none
    | some nd => some { s with pool := s.pool.set i { nd with next := m } }

/-- Models `std::vector` capacity growth on `push_back`: unchanged when
one more element fits, otherwise geometric doubling (and at least the new
size).  The exact factor is implementation-defined in C++; every claim
proved below uses only that the result is never below `cap`. -/
def vecGrow (len cap : Nat) : Nat :=
  if len + 1 ≤ cap then cap else max (2 * cap) (len + 1)

/-- Embeds `pool.push_back(nd)`: appends a node and grows the capacity. -/
def pushBack (s : StackPool T) (nd : Node T) : StackPool T :=
  { s with pool := s.pool ++ [nd], cap := vecGrow s.pool.length s.cap }

/-- Embeds the first statement of `push_universal`: when `free_nodes` is
empty, `push_back` a fresh node `node_t(end())` (default value, next `0`)
and set `free_nodes = pool.size()`. -/
def growIfNeeded [Inhabited T] (s : StackPool T) : StackPool T :=
  if empty s.free_nodes then
    let sg := pushBack s (Node.mk default endIdx)
    { sg with free_nodes := sg.pool.length }
  else s

/-- Embeds `push_universal(val, head)`: after `growIfNeeded`, pop the
free-list head, store the value, link it ahead of `head`, and return it
as the new head.  Both public `push` overloads (copy and move) delegate
here with identical logic. -/
def push_universal [Inhabited T] (val : T) (head : Nat) (s : StackPool T) :
    Option (Nat × StackPool T) :=
  let s0 := growIfNeeded s
  let new_head := s0.free_nodes
  match s0.next? new_head with
  | none => none
  | some f =>
    let s1 := { s0 with free_nodes := f }
    match s1.setValue new_head val with
    | none => none
    | some s2 =>
      match s2.setNext new_head head with
      | none => none
      | some s3 => some (new_head, s3)

/-- Embeds `push(val, head)` (either overload): forwards to
`push_universal`. -/
def push [Inhabited T] (val : T) (head : Nat) (s : StackPool T) :
    Option (Nat × StackPool T) :=
  push_universal val head s

/-- Embeds `pop(x)`: read `next(x)` as the new head of the caller's
stack, relink `x` onto the front of `free_nodes`, return the new head. -/
def pop (x : Nat) (s : StackPool T) : Option (Nat × StackPool T) :=
  match s.next? x with
  | none => none
  | some new_head =>
    match s.setNext x s.free_nodes with
    | none => none
    | some s1 => some (new_head, { s1 with free_nodes := x })

/-- Embeds the tail walk of `free_stack`: the empty `for` loop advancing
`bottom` while `bottom->next != end()`.  Fuel bounds the walk; the caller
passes `pool.length`, enough for every acyclic chain, and the source
itself never terminates on a cyclic chain. -/
def findBottom (s : StackPool T) : Nat → Nat → Option Nat
  | _, 0 => none
  | x, fuel + 1 =>
    match s.next? x with
    | none => none
    | some 0 => some x
    | some y => findBottom s y fuel

/-- Embeds `free_stack(x)`: a no-op returning `x` when the stack is
empty; otherwise walk to the chain's bottom node, relink its `next` to
the current `free_nodes`, set `free_nodes = x`, and return `end()`. -/
def free_stack (x : Nat) (s : StackPool T) : Option (Nat × StackPool T) :=
  if empty x then some (x, s)
  else
    match findBottom s x s.pool.length with
    | none => none
    | some b =>
      match s.setNext b s.free_nodes with
      | none => none
      | some s1 => some (endIdx, { s1 with free_nodes := x })

/-- Embeds `reserve(n)`: forwards to `std::vector::reserve`, which grows
the capacity to at least `n` and never shrinks it. -/
def reserve (n : Nat) (s : StackPool T) : StackPool T :=
  { s with cap := max s.cap n }

/-- Embeds `capacity()`: forwards to `std::vector::capacity`. -/
def capacity (s : StackPool T) : Nat := s.cap

/-- Embeds the traversal a caller performs with the stack cursor: from a
handle, follow `next` until the sentinel, collecting the values.  Fuel
bounds the walk as in `findBottom`. -/
def toList (s : StackPool T) : Nat → Nat → Option (List T)
  | 0, _ => some []
  | _ + 1, 0 => none
  | x + 1, fuel + 1 =>
    match s.node? (x + 1) with
    | none => none
    | some nd => (toList s nd.next fuel).map (nd.value :: ·)

/-- Traversal of one stack with the canonical fuel `pool.length`, enough
for every acyclic chain in the arena. -/
def traverse (s : StackPool T) (x : Nat) : Option (List T) :=
  toList s x s.pool.length

/-- One arena call, for stating properties over arbitrary call
sequences. -/
inductive Op (T : Type) where
  | push (v : T) (head : Nat)
  | reserve (n : Nat)
  | pop (head : Nat)
  | free (head : Nat)

/-- Applies one call to the arena, keeping the prior state when the call
fails (a failed call leaves the arena in its last valid state). -/
def applyOp [Inhabited T] : Op T → StackPool T → StackPool T
  | .push v h, s =>
    match StackPool.push v h s with
    | none => s
    | some (_, s') => s'
  | .reserve n, s => reserve n s
  | .pop h, s =>
    match pop h s with
    | none => s
    | some (_, s') => s'
  | .free h, s =>
    match free_stack h s with
    | none => s
    | some (_, s') => s'

/-- Applies a sequence of calls in order. -/
def runOps [Inhabited T] : List (Op T) → StackPool T → StackPool T
  | [], s => s
  | o :: os, s => runOps os (applyOp o s)

/-- The chain shape produced by pushing values in order onto an initially
empty arena: the node for the i-th pushed value (0-based) sits in slot i
and links to the handle i of the previously pushed node. -/
def chainNodes : List T → Nat → List (Node T)
  | [], _ => []
  | v :: vs, i => Node.mk v i :: chainNodes vs (i + 1)

/-- Vector capacity after k appends to an initially empty vector. -/
def capSeq : Nat → Nat
  | 0 => 0
  | k + 1 => vecGrow k (capSeq k)

/-- The full arena state after pushing `vs` in order onto the empty
arena. -/
def chainState (vs : List T) : StackPool T :=
  ⟨chainNodes vs 0, capSeq vs.length, 0⟩

/-- Pushes the values of `vs` in order, each onto the handle returned by
the previous call. -/
def pushSeq [Inhabited T] : List T → Nat → StackPool T → Option (Nat × StackPool T)
  | [], h, s => some (h, s)
  | v :: vs, h, s =>
    match push v h s with
    | none => none
    | some (h', s') => pushSeq vs h' s'

/-- As `pushSeq`, but also records the handle returned by each push. -/
def pushHandles [Inhabited T] : List T → Nat → StackPool T →
    Option (List Nat × Nat × StackPool T)
  | [], h, s => some ([], h, s)
  | v :: vs, h, s =>
    match push v h s with
    | none => none
    | some (h', s') =>
      match pushHandles vs h' s' with
      | none => none
      | some (hs, hf, sf) => some (h' :: hs, hf, sf)

/-- Decides that following `next` from `x` passes exactly through the
handles `is` in order and ends at `t`. -/
def chainToB (s : StackPool T) : Nat → List Nat → Nat → Bool
  | x, [], t => x == t
  | x, i :: rest, t =>
    x == i && !(i == 0) &&
      match s.next? i with
      | none => false
      | some y => chainToB s y rest t

end StackPool

/-- Embeds the observable identity of `class _iterator<P, T>`: the raw
arena pointer `pool` (pointer identity modelled as an instance id) and
the current node index. -/
structure Iter where
  pool_id : Nat
  current : Nat
  deriving Repr, DecidableEq

namespace Iter

/-- Embeds `operator==`: `(a.current == b.current) && (a.pool == b.pool)`. -/
def beq (a b : Iter) : Bool := (a.current == b.current) && (a.pool_id == b.pool_id)

/-- Embeds `operator!=`: `!(a == b)`. -/
def bne (a b : Iter) : Bool := !(beq a b)

end Iter

/-! ## Helper lemmas about the embedded operations -/

open StackPool

theorem setNext_eq_succ {T : Type} {s : StackPool T} {i : Nat} {nd : Node T}
    (h : s.pool[i]? = some nd) (m : Nat) :
    s.setNext (i + 1) m = some { s with pool := s.pool.set i { nd with next := m } } := by
  simp [setNext, h]

theorem setValue_eq_succ {T : Type} {s : StackPool T} {i : Nat} {nd : Node T}
    (h : s.pool[i]? = some nd) (v : T) :
    s.setValue (i + 1) v = some { s with pool := s.pool.set i { nd with value := v } } := by
  simp [setValue, h]

theorem setNext_frame {T : Type} {s s' : StackPool T} {x m : Nat}
    (h : s.setNext x m = some s') :
    s'.cap = s.cap ∧ s'.free_nodes = s.free_nodes ∧ s'.pool.length = s.pool.length ∧
    s'.next? x = some m ∧ (∀ y, y ≠ x → s'.next? y = s.next? y) ∧
    (∀ y, s'.value? y = s.value? y) := by
  cases x with
  | zero => simp [setNext] at h
  | succ i =>
    cases hnd : s.pool[i]? with
    | none => simp [setNext, hnd] at h
    | some nd =>
      rw [setNext_eq_succ hnd] at h
      injection h with h
      subst h
      refine ⟨rfl, rfl, by simp, ?_, ?_, ?_⟩
      · simp [next?, node?, List.getElem?_set_self', hnd]
      · intro y hy
        cases y with
        | zero => rfl
        | succ j =>
          have hij : i ≠ j := by omega
          simp [next?, node?, List.getElem?_set_ne hij]
      · intro y
        cases y with
        | zero => rfl
        | succ j =>
          by_cases hij : i = j
          · subst hij
            simp [value?, node?, List.getElem?_set_self', hnd]
          · simp [value?, node?, List.getElem?_set_ne hij]

theorem setValue_frame {T : Type} {s s' : StackPool T} {x : Nat} {v : T}
    (h : s.setValue x v = some s') :
    s'.cap = s.cap ∧ s'.free_nodes = s.free_nodes ∧ s'.pool.length = s.pool.length ∧
    s'.value? x = some v ∧ (∀ y, y ≠ x → s'.value? y = s.value? y) ∧
    (∀ y, s'.next? y = s.next? y) := by
  cases x with
  | zero => simp [setValue] at h
  | succ i =>
    cases hnd : s.pool[i]? with
    | none => simp [setValue, hnd] at h
    | some nd =>
      rw [setValue_eq_succ hnd] at h
      injection h with h
      subst h
      refine ⟨rfl, rfl, by simp, ?_, ?_, ?_⟩
      · simp [value?, node?, List.getElem?_set_self', hnd]
      · intro y hy
        cases y with
        | zero => rfl
        | succ j =>
          have hij : i ≠ j := by omega
          simp [value?, node?, List.getElem?_set_ne hij]
      · intro y
        cases y with
        | zero => rfl
        | succ j =>
          by_cases hij : i = j
          · subst hij
            simp [next?, node?, List.getElem?_set_self', hnd]
          · simp [next?, node?, List.getElem?_set_ne hij]

theorem pop_spec {T : Type} {s : StackPool T} {x n : Nat} (hn : s.next? x = some n) :
    ∃ s', pop x s = some (n, s') ∧ s'.free_nodes = x ∧ s'.next? x = some s.free_nodes ∧
      (∀ y, y ≠ x → s'.next? y = s.next? y) ∧ (∀ y, s'.value? y = s.value? y) ∧
      s'.cap = s.cap ∧ s'.pool.length = s.pool.length := by
  cases x with
  | zero => simp [next?, node?] at hn
  | succ i =>
    obtain ⟨nd, hnd⟩ : ∃ nd, s.pool[i]? = some nd := by
      cases h : s.pool[i]? with
      | none => simp [next?, node?, h] at hn
      | some nd => exact ⟨nd, rfl⟩
    have hset := setNext_eq_succ hnd s.free_nodes
    have hfr := setNext_frame hset
    refine ⟨{ pool := s.pool.set i { nd with next := s.free_nodes }, cap := s.cap,
              free_nodes := i + 1 },
      by simp [pop, hn, hset], rfl, ?_, ?_, ?_, ?_, ?_⟩
    · exact hfr.2.2.2.1
    · exact hfr.2.2.2.2.1
    · exact hfr.2.2.2.2.2
    · exact hfr.1
    · exact hfr.2.2.1

theorem growIfNeeded_of_empty {T : Type} [Inhabited T] {s : StackPool T}
    (h : s.free_nodes = 0) :
    growIfNeeded s =
      { pool := s.pool ++ [Node.mk default 0], cap := vecGrow s.pool.length s.cap,
        free_nodes := s.pool.length + 1 } := by
  simp [growIfNeeded, empty, endIdx, h, pushBack]

theorem growIfNeeded_of_ne {T : Type} [Inhabited T] {s : StackPool T}
    (h : s.free_nodes ≠ 0) : growIfNeeded s = s := by
  simp [growIfNeeded, empty, endIdx, h]

theorem growIfNeeded_free_ne_zero {T : Type} [Inhabited T] (s : StackPool T) :
    (growIfNeeded s).free_nodes ≠ 0 := by
  by_cases h : s.free_nodes = 0
  · rw [growIfNeeded_of_empty h]
    simp
  · rw [growIfNeeded_of_ne h]
    exact h

theorem push_result_eq {T : Type} [Inhabited T] {v : T} {h r : Nat} {s s' : StackPool T}
    (hp : push v h s = some (r, s')) : r = (growIfNeeded s).free_nodes := by
  simp only [push, push_universal] at hp
  cases hnx : (growIfNeeded s).next? (growIfNeeded s).free_nodes with
  | none => rw [hnx] at hp; simp at hp
  | some f =>
    rw [hnx] at hp
    simp only [] at hp
    cases hsv : StackPool.setValue { growIfNeeded s with free_nodes := f }
        (growIfNeeded s).free_nodes v with
    | none => rw [hsv] at hp; simp at hp
    | some s2 =>
      rw [hsv] at hp
      simp only [] at hp
      cases hsn : s2.setNext (growIfNeeded s).free_nodes h with
      | none => rw [hsn] at hp; simp at hp
      | some s3 =>
        rw [hsn] at hp
        simp only [Option.some.injEq, Prod.mk.injEq] at hp
        exact hp.1.symm

/-! ## Claim theorems -/

/-- C2 (counterexample to the claim as stated): after building a
one-node stack with `push 10` and freeing its node with `pop`, handle `1`
is already freed — it is the head of `free_nodes` — yet `value?`, `next?`
and even `pop` on it still succeed, silently reading (and relinking) the
stale node instead of failing. -/
theorem C2_counterexample_stale_read :
    pop 1 (StackPool.mk [Node.mk (10 : Nat) 0] 1 0) =
      some (0, StackPool.mk [Node.mk (10 : Nat) 0] 1 1) ∧
    (StackPool.mk [Node.mk (10 : Nat) 0] 1 1).free_nodes = 1 ∧
    value? (StackPool.mk [Node.mk (10 : Nat) 0] 1 1) 1 = some 10 ∧
    next? (StackPool.mk [Node.mk (10 : Nat) 0] 1 1) 1 = some 0 ∧
    pop 1 (StackPool.mk [Node.mk (10 : Nat) 0] 1 1) =
      some (0, StackPool.mk [Node.mk (10 : Nat) 1] 1 1) := by
  decide

/-- C3: for every valid non-sentinel head `h`, `pop h` returns the index
that `next h` held before the call; afterwards `h` is the new head of the
free list and `next h` equals the previous `free_nodes`. -/
theorem C3_pop_detaches_and_relinks {T : Type} {s : StackPool T} {h n : Nat}
    (hn : s.next? h = some n) :
    ∃ s', pop h s = some (n, s') ∧ s'.free_nodes = h ∧
      s'.next? h = some s.free_nodes := by
  obtain ⟨s', h1, h2, h3, -⟩ := pop_spec hn
  exact ⟨s', h1, h2, h3⟩

/-- Witness for C3 at a concrete one-node arena. -/
theorem C3_pop_detaches_and_relinks_witness :
    (StackPool.mk [Node.mk (10 : Nat) 0] 1 0).next? 1 = some 0 ∧
    (∃ s', pop 1 (StackPool.mk [Node.mk (10 : Nat) 0] 1 0) = some (0, s') ∧
      s'.free_nodes = 1 ∧
      s'.next? 1 = some (StackPool.mk [Node.mk (10 : Nat) 0] 1 0).free_nodes) :=
  ⟨by decide, C3_pop_detaches_and_relinks (by decide)⟩

/-- C6: `free_stack` on the sentinel (an empty stack) returns the
sentinel and leaves the whole arena state unchanged. -/
theorem C6_free_stack_sentinel_noop {T : Type} (s : StackPool T) :
    free_stack 0 s = some (0, s) := by
  simp [free_stack, empty, endIdx]

/-- C9: two cursors compare equal iff they reference the same arena
instance and hold the same current index, and inequality is the exact
negation of equality. -/
theorem C9_cursor_equality (a b : Iter) :
    (Iter.beq a b = true ↔ a.pool_id = b.pool_id ∧ a.current = b.current) ∧
    Iter.bne a b = !(Iter.beq a b) := by
  refine ⟨?_, rfl⟩
  simp [Iter.beq, and_comm]

/-- C10: a successful `push` never returns the sentinel, so its result
always names a real node and can never be confused with
`new_stack()`/`end()`. -/
theorem C10_push_never_sentinel {T : Type} [Inhabited T] {v : T} {h r : Nat}
    {s s' : StackPool T} (hp : push v h s = some (r, s')) :
    empty r = false := by
  have hr := push_result_eq hp
  have hne := growIfNeeded_free_ne_zero s
  rw [hr]
  simp [empty, endIdx, hne]

/-- Witness for C10: pushing onto the empty arena returns handle 1, not
the sentinel. -/
theorem C10_push_never_sentinel_witness :
    push (5 : Nat) 0 StackPool.init = some (1, StackPool.mk [Node.mk 5 0] 1 0) ∧
    empty 1 = false :=
  ⟨by decide,
    @C10_push_never_sentinel Nat _ 5 0 1 StackPool.init (StackPool.mk [Node.mk 5 0] 1 0)
      (by decide)⟩

theorem getElem?_some_lt {α : Type} {l : List α} {i : Nat} {a : α}
    (h : l[i]? = some a) : i < l.length := by
  by_contra hge
  rw [List.getElem?_eq_none (Nat.le_of_not_lt hge)] at h
  exact Option.noConfusion h

theorem list_set_getElem?_self {α : Type} {l : List α} {i : Nat} {a : α}
    (h : l[i]? = some a) : l.set i a = l := by
  induction l generalizing i with
  | nil => simp at h
  | cons b t ih =>
    cases i with
    | zero =>
      simp only [List.getElem?_cons_zero, Option.some.injEq] at h
      simp [h]
    | succ j =>
      simp only [List.getElem?_cons_succ] at h
      simp [ih h]

theorem set_concat_length {α : Type} (l : List α) (a b : α) :
    (l ++ [a]).set l.length b = l ++ [b] := by
  simp [List.set_append]

theorem push_spec_free {T : Type} [Inhabited T] {s : StackPool T} {j : Nat} {ndj : Node T}
    (hfr : s.free_nodes = j + 1) (hnd : s.pool[j]? = some ndj) (v : T) (head : Nat) :
    push v head s =
      some (j + 1, ⟨s.pool.set j (Node.mk v head), s.cap, ndj.next⟩) := by
  have hne : s.free_nodes ≠ 0 := by rw [hfr]; exact Nat.succ_ne_zero j
  have hg : growIfNeeded s = s := growIfNeeded_of_ne hne
  have hlt : j < s.pool.length := getElem?_some_lt hnd
  have hnx : s.next? s.free_nodes = some ndj.next := by
    rw [hfr]; simp [next?, node?, hnd]
  have hsv : StackPool.setValue { s with free_nodes := ndj.next } s.free_nodes v
      = some ⟨s.pool.set j (Node.mk v ndj.next), s.cap, ndj.next⟩ := by
    rw [hfr]
    rw [setValue_eq_succ (show ({ s with free_nodes := ndj.next} :
      StackPool T).pool[j]? = some ndj from hnd) v]
  have hsn : StackPool.setNext
      (⟨s.pool.set j (Node.mk v ndj.next), s.cap, ndj.next⟩ : StackPool T)
      s.free_nodes head
      = some ⟨s.pool.set j (Node.mk v head), s.cap, ndj.next⟩ := by
    rw [hfr]
    rw [setNext_eq_succ (show (⟨s.pool.set j (Node.mk v ndj.next), s.cap, ndj.next⟩ :
      StackPool T).pool[j]? = some (Node.mk v ndj.next) from
        List.getElem?_set_eq_of_lt _ hlt) head]
    simp [List.set_set]
  simp only [push, push_universal, hg, hnx, hsv, hsn]
  rw [hfr]

theorem push_spec_grow {T : Type} [Inhabited T] {s : StackPool T}
    (hfr : s.free_nodes = 0) (v : T) (head : Nat) :
    push v head s =
      some (s.pool.length + 1,
        ⟨s.pool ++ [Node.mk v head], vecGrow s.pool.length s.cap, 0⟩) := by
  have hg := growIfNeeded_of_empty hfr
  have hget : (s.pool ++ [Node.mk (default : T) 0])[s.pool.length]? =
      some (Node.mk default 0) :=
    List.getElem?_concat_length s.pool (Node.mk default 0)
  have hnx : StackPool.next?
      (⟨s.pool ++ [Node.mk (default : T) 0], vecGrow s.pool.length s.cap,
        s.pool.length + 1⟩ : StackPool T) (s.pool.length + 1) = some 0 := by
    simp [next?, node?, hget]
  have hsv : StackPool.setValue
      (⟨s.pool ++ [Node.mk (default : T) 0], vecGrow s.pool.length s.cap, 0⟩ : StackPool T)
      (s.pool.length + 1) v
      = some ⟨s.pool ++ [Node.mk v 0], vecGrow s.pool.length s.cap, 0⟩ := by
    rw [setValue_eq_succ (show
      (⟨s.pool ++ [Node.mk (default : T) 0], vecGrow s.pool.length s.cap, 0⟩ :
        StackPool T).pool[s.pool.length]? = some (Node.mk default 0) from hget) v]
    simp [set_concat_length]
  have hsn : StackPool.setNext
      (⟨s.pool ++ [Node.mk v 0], vecGrow s.pool.length s.cap, 0⟩ : StackPool T)
      (s.pool.length + 1) head
      = some ⟨s.pool ++ [Node.mk v head], vecGrow s.pool.length s.cap, 0⟩ := by
    rw [setNext_eq_succ (show
      (⟨s.pool ++ [Node.mk v 0], vecGrow s.pool.length s.cap, 0⟩ :
        StackPool T).pool[s.pool.length]? = some (Node.mk v 0) from
      List.getElem?_concat_length _ _) head]
    simp [set_concat_length]
  simp only [push, push_universal, hg, hnx, hsv, hsn]

/-- C4: for every valid non-sentinel head `h` holding value `v` and link
`n`, `pop h` frees the slot and `push v` onto the returned head reuses
exactly slot `h` and restores the arena to its state before the pop. -/
theorem C4_pop_push_roundtrip {T : Type} [Inhabited T] {s : StackPool T} {h : Nat}
    {v : T} {n : Nat} (hnd : s.node? h = some (Node.mk v n)) :
    ∃ s1, pop h s = some (n, s1) ∧ push v n s1 = some (h, s) := by
  cases h with
  | zero => simp [node?] at hnd
  | succ i =>
    have hnd' : s.pool[i]? = some (Node.mk v n) := hnd
    have hnx : s.next? (i + 1) = some n := by simp [next?, node?, hnd']
    have hset := setNext_eq_succ hnd' s.free_nodes
    refine ⟨⟨s.pool.set i (Node.mk v s.free_nodes), s.cap, i + 1⟩, ?_, ?_⟩
    · simp only [pop, hnx, hset]
    · have hfr : (⟨s.pool.set i (Node.mk v s.free_nodes), s.cap, i + 1⟩ :
          StackPool T).free_nodes = i + 1 := rfl
      have hnd2 : (⟨s.pool.set i (Node.mk v s.free_nodes), s.cap, i + 1⟩ :
          StackPool T).pool[i]? = some (Node.mk v s.free_nodes) :=
        List.getElem?_set_eq_of_lt _ (getElem?_some_lt hnd')
      rw [push_spec_free hfr hnd2 v n]
      simp only [List.set_set, list_set_getElem?_self hnd']

/-- Witness for C4 at a concrete two-node arena: popping handle 2 and
pushing its value back returns handle 2 and restores the arena. -/
theorem C4_pop_push_roundtrip_witness :
    (StackPool.mk [Node.mk (10 : Nat) 0, Node.mk 20 1] 2 0).node? 2 = some (Node.mk 20 1) ∧
    ∃ s1, pop 2 (StackPool.mk [Node.mk (10 : Nat) 0, Node.mk 20 1] 2 0) = some (1, s1) ∧
      push 20 1 s1 = some (2, StackPool.mk [Node.mk (10 : Nat) 0, Node.mk 20 1] 2 0) :=
  ⟨by decide, C4_pop_push_roundtrip (by decide)⟩

theorem pop_eq_some {T : Type} {s s' : StackPool T} {x n : Nat}
    (hp : pop x s = some (n, s')) :
    ∃ s1, s.next? x = some n ∧ s.setNext x s.free_nodes = some s1 ∧
      s' = { s1 with free_nodes := x } := by
  cases hnx : s.next? x with
  | none => simp [pop, hnx] at hp
  | some m =>
    cases hsn : s.setNext x s.free_nodes with
    | none => simp [pop, hnx, hsn] at hp
    | some s1 =>
      simp only [pop, hnx, hsn, Option.some.injEq, Prod.mk.injEq] at hp
      obtain ⟨rfl, rfl⟩ := hp
      exact ⟨s1, rfl, rfl, rfl⟩

/-- C2 (amended): the code performs no validity check on handles — for
every successful `pop` that frees a head `x`, the stale handle `x` keeps
working instead of failing: `x` heads the free list, `value x` still
returns its old value unchanged (never an error), `next x` now exposes
the old `free_nodes` link, and `pop x` succeeds a second time.  (For the
sentinel or an out-of-range handle the source's unchecked vector
indexing is undefined behavior, not a guaranteed error, so no fail-fast
property exists there either.) -/
theorem C2_no_validity_check {T : Type} {s s' : StackPool T} {x n : Nat}
    (hp : pop x s = some (n, s')) :
    s'.free_nodes = x ∧
    value? s' x = value? s x ∧ value? s' x ≠ none ∧
    next? s' x = some s.free_nodes ∧
    ∃ s'', pop x s' = some (s.free_nodes, s'') := by
  obtain ⟨s1, hnx, hsn, rfl⟩ := pop_eq_some hp
  have hfr := setNext_frame hsn
  have hnext : StackPool.next? { s1 with free_nodes := x } x = some s.free_nodes :=
    hfr.2.2.2.1
  have hval : ∀ y, StackPool.value? { s1 with free_nodes := x } y = s.value? y :=
    hfr.2.2.2.2.2
  have hvx : s.value? x ≠ none := by
    cases hnd : s.node? x with
    | none => rw [show s.next? x = (s.node? x).map Node.next from rfl, hnd] at hnx; simp at hnx
    | some nd => simp [value?, hnd]
  obtain ⟨s2, hp2, -⟩ := pop_spec hnext
  exact ⟨rfl, hval x, by rw [hval x]; exact hvx, hnext, s2, hp2⟩

/-- Witness for C2 (amended): after `pop` frees handle 1 of a concrete
one-node arena, reading and popping the freed handle still succeed. -/
theorem C2_no_validity_check_witness :
    pop 1 (StackPool.mk [Node.mk (10 : Nat) 0] 1 0) =
      some (0, StackPool.mk [Node.mk (10 : Nat) 0] 1 1) ∧
    ((StackPool.mk [Node.mk (10 : Nat) 0] 1 1).free_nodes = 1 ∧
      value? (StackPool.mk [Node.mk (10 : Nat) 0] 1 1) 1 =
        value? (StackPool.mk [Node.mk (10 : Nat) 0] 1 0) 1 ∧
      value? (StackPool.mk [Node.mk (10 : Nat) 0] 1 1) 1 ≠ none ∧
      next? (StackPool.mk [Node.mk (10 : Nat) 0] 1 1) 1 =
        some (StackPool.mk [Node.mk (10 : Nat) 0] 1 0).free_nodes ∧
      ∃ s'', pop 1 (StackPool.mk [Node.mk (10 : Nat) 0] 1 1) =
        some ((StackPool.mk [Node.mk (10 : Nat) 0] 1 0).free_nodes, s'')) :=
  ⟨by decide,
    @C2_no_validity_check Nat (StackPool.mk [Node.mk 10 0] 1 0)
      (StackPool.mk [Node.mk 10 0] 1 1) 1 0 (by decide)⟩

theorem free_stack_eq_some {T : Type} {s s' : StackPool T} {x r : Nat}
    (hp : free_stack x s = some (r, s')) :
    (x = 0 ∧ r = 0 ∧ s' = s) ∨
    (x ≠ 0 ∧ r = 0 ∧ ∃ b s1, findBottom s x s.pool.length = some b ∧
      s.setNext b s.free_nodes = some s1 ∧ s' = { s1 with free_nodes := x }) := by
  by_cases hx : x = 0
  · subst hx
    simp only [free_stack, empty, endIdx, beq_self_eq_true, if_true,
      Option.some.injEq, Prod.mk.injEq] at hp
    obtain ⟨rfl, rfl⟩ := hp
    exact Or.inl ⟨rfl, rfl, rfl⟩
  · have hex : empty x = false := by simp [empty, endIdx, hx]
    simp only [free_stack, hex, Bool.false_eq_true, if_false] at hp
    cases hfb : findBottom s x s.pool.length with
    | none => rw [hfb] at hp; simp at hp
    | some b =>
      rw [hfb] at hp
      simp only [] at hp
      cases hsn : s.setNext b s.free_nodes with
      | none => rw [hsn] at hp; simp at hp
      | some s1 =>
        rw [hsn] at hp
        simp only [endIdx, Option.some.injEq, Prod.mk.injEq] at hp
        obtain ⟨rfl, rfl⟩ := hp
        exact Or.inr ⟨hx, rfl, b, s1, rfl, hsn, rfl⟩

theorem push_eq_some {T : Type} [Inhabited T] {v : T} {h r : Nat} {s s' : StackPool T}
    (hp : push v h s = some (r, s')) :
    r = (growIfNeeded s).free_nodes ∧
    ∃ f s2, (growIfNeeded s).next? (growIfNeeded s).free_nodes = some f ∧
      StackPool.setValue { growIfNeeded s with free_nodes := f }
        (growIfNeeded s).free_nodes v = some s2 ∧
      s2.setNext (growIfNeeded s).free_nodes h = some s' := by
  simp only [push, push_universal] at hp
  cases hnx : (growIfNeeded s).next? (growIfNeeded s).free_nodes with
  | none => rw [hnx] at hp; simp at hp
  | some f =>
    rw [hnx] at hp
    simp only [] at hp
    cases hsv : StackPool.setValue { growIfNeeded s with free_nodes := f }
        (growIfNeeded s).free_nodes v with
    | none => rw [hsv] at hp; simp at hp
    | some s2 =>
      rw [hsv] at hp
      simp only [] at hp
      cases hsn : s2.setNext (growIfNeeded s).free_nodes h with
      | none => rw [hsn] at hp; simp at hp
      | some s3 =>
        rw [hsn] at hp
        simp only [Option.some.injEq, Prod.mk.injEq] at hp
        obtain ⟨rfl, rfl⟩ := hp
        exact ⟨rfl, f, s2, rfl, hsv, hsn⟩

theorem vecGrow_le {len cap : Nat} : cap ≤ vecGrow len cap := by
  unfold vecGrow
  split
  · exact Nat.le_refl cap
  · exact le_trans (by omega) (le_max_left (2 * cap) (len + 1))

theorem growIfNeeded_cap_mono {T : Type} [Inhabited T] (s : StackPool T) :
    s.cap ≤ (growIfNeeded s).cap := by
  by_cases h : s.free_nodes = 0
  · rw [growIfNeeded_of_empty h]
    exact vecGrow_le
  · rw [growIfNeeded_of_ne h]

theorem push_cap_mono {T : Type} [Inhabited T] {v : T} {h r : Nat} {s s' : StackPool T}
    (hp : push v h s = some (r, s')) : s.cap ≤ s'.cap := by
  obtain ⟨-, f, s2, -, hsv, hsn⟩ := push_eq_some hp
  have h2 := (setValue_frame hsv).1
  have h3 := (setNext_frame hsn).1
  rw [h3, h2]
  exact growIfNeeded_cap_mono s

theorem pop_cap_eq {T : Type} {s s' : StackPool T} {x n : Nat}
    (hp : pop x s = some (n, s')) : s'.cap = s.cap := by
  obtain ⟨s1, -, hsn, rfl⟩ := pop_eq_some hp
  exact (setNext_frame hsn).1

theorem free_stack_cap_eq {T : Type} {s s' : StackPool T} {x r : Nat}
    (hp : free_stack x s = some (r, s')) : s'.cap = s.cap := by
  rcases free_stack_eq_some hp with ⟨-, -, rfl⟩ | ⟨-, -, b, s1, -, hsn, rfl⟩
  · rfl
  · exact (setNext_frame hsn).1

theorem pop_values_eq {T : Type} {s s' : StackPool T} {x n : Nat}
    (hp : pop x s = some (n, s')) : ∀ y, s'.value? y = s.value? y := by
  obtain ⟨s1, -, hsn, rfl⟩ := pop_eq_some hp
  exact (setNext_frame hsn).2.2.2.2.2

theorem free_stack_values_eq {T : Type} {s s' : StackPool T} {x r : Nat}
    (hp : free_stack x s = some (r, s')) : ∀ y, s'.value? y = s.value? y := by
  rcases free_stack_eq_some hp with ⟨-, -, rfl⟩ | ⟨-, -, b, s1, -, hsn, rfl⟩
  · intro y; rfl
  · exact (setNext_frame hsn).2.2.2.2.2

theorem applyOp_cap_mono {T : Type} [Inhabited T] (o : Op T) (s : StackPool T) :
    s.cap ≤ (applyOp o s).cap := by
  cases o with
  | push v h =>
    simp only [applyOp]
    cases hp : StackPool.push v h s with
    | none => exact Nat.le_refl _
    | some p =>
      cases p with
      | mk r s' => exact push_cap_mono hp
  | reserve n =>
    simp only [applyOp, reserve]
    exact le_max_left s.cap n
  | pop h =>
    simp only [applyOp]
    cases hp : StackPool.pop h s with
    | none => exact Nat.le_refl _
    | some p =>
      cases p with
      | mk r s' => exact Nat.le_of_eq (pop_cap_eq hp).symm
  | free h =>
    simp only [applyOp]
    cases hp : StackPool.free_stack h s with
    | none => exact Nat.le_refl _
    | some p =>
      cases p with
      | mk r s' => exact Nat.le_of_eq (free_stack_cap_eq hp).symm

theorem runOps_cap_mono {T : Type} [Inhabited T] (ops : List (Op T)) (s : StackPool T) :
    s.cap ≤ (runOps ops s).cap := by
  induction ops generalizing s with
  | nil => exact Nat.le_refl _
  | cons o os ih => exact le_trans (applyOp_cap_mono o s) (ih (applyOp o s))

/-- C7: across every sequence of push, reserve, pop, and free_stack
calls `capacity()` never decreases, and pop and free_stack leave it
exactly unchanged. -/
theorem C7_capacity_never_decreases {T : Type} [Inhabited T] :
    (∀ (ops : List (Op T)) (s : StackPool T), capacity s ≤ capacity (runOps ops s)) ∧
    (∀ (s s' : StackPool T) (h n : Nat), pop h s = some (n, s') →
      capacity s' = capacity s) ∧
    (∀ (s s' : StackPool T) (h r : Nat), free_stack h s = some (r, s') →
      capacity s' = capacity s) :=
  ⟨fun ops s => runOps_cap_mono ops s,
   fun _ _ _ _ hp => pop_cap_eq hp,
   fun _ _ _ _ hp => free_stack_cap_eq hp⟩

/-- Witness for C7: a concrete call sequence on the empty arena, plus a
concrete pop and a concrete free_stack that leave capacity unchanged. -/
theorem C7_capacity_never_decreases_witness :
    (capacity (StackPool.init : StackPool Nat) ≤
      capacity (runOps [Op.push 7 0, Op.reserve 5, Op.pop 1, Op.free 0] StackPool.init)) ∧
    (pop 1 (StackPool.mk [Node.mk (7 : Nat) 0] 1 0) =
        some (0, StackPool.mk [Node.mk (7 : Nat) 0] 1 1) ∧
      capacity (StackPool.mk [Node.mk (7 : Nat) 0] 1 1) =
        capacity (StackPool.mk [Node.mk (7 : Nat) 0] 1 0)) ∧
    (free_stack 1 (StackPool.mk [Node.mk (7 : Nat) 0] 1 0) =
        some (0, StackPool.mk [Node.mk (7 : Nat) 0] 1 1) ∧
      capacity (StackPool.mk [Node.mk (7 : Nat) 0] 1 1) =
        capacity (StackPool.mk [Node.mk (7 : Nat) 0] 1 0)) :=
  ⟨C7_capacity_never_decreases.1 [Op.push 7 0, Op.reserve 5, Op.pop 1, Op.free 0]
      StackPool.init,
   ⟨by decide, C7_capacity_never_decreases.2.1 _ _ 1 0 (by decide)⟩,
   ⟨by decide, C7_capacity_never_decreases.2.2 _ _ 1 0 (by decide)⟩⟩

/-- C8: pop and free_stack leave the value field of every node unchanged
(including the freed nodes): freeing only relinks `next` fields, so a
freed slot's value persists until the next push overwrites it. -/
theorem C8_free_preserves_values {T : Type} :
    (∀ (s s' : StackPool T) (x n : Nat), pop x s = some (n, s') →
      ∀ y, s'.value? y = s.value? y) ∧
    (∀ (s s' : StackPool T) (x r : Nat), free_stack x s = some (r, s') →
      ∀ y, s'.value? y = s.value? y) :=
  ⟨fun _ _ _ _ hp => pop_values_eq hp,
   fun _ _ _ _ hp => free_stack_values_eq hp⟩

/-- Witness for C8: a concrete pop and a concrete free_stack, after each
of which the freed node still holds its old value. -/
theorem C8_free_preserves_values_witness :
    (pop 2 (StackPool.mk [Node.mk (10 : Nat) 0, Node.mk 20 1] 2 0) =
        some (1, StackPool.mk [Node.mk (10 : Nat) 0, Node.mk 20 0] 2 2) ∧
      ∀ y, value? (StackPool.mk [Node.mk (10 : Nat) 0, Node.mk 20 0] 2 2) y =
        value? (StackPool.mk [Node.mk (10 : Nat) 0, Node.mk 20 1] 2 0) y) ∧
    (free_stack 2 (StackPool.mk [Node.mk (10 : Nat) 0, Node.mk 20 1] 2 0) =
        some (0, StackPool.mk [Node.mk (10 : Nat) 0, Node.mk 20 1] 2 2) ∧
      ∀ y, value? (StackPool.mk [Node.mk (10 : Nat) 0, Node.mk 20 1] 2 2) y =
        value? (StackPool.mk [Node.mk (10 : Nat) 0, Node.mk 20 1] 2 0) y) :=
  ⟨⟨by decide, C8_free_preserves_values.1 _ _ 2 1 (by decide)⟩,
   ⟨by decide, C8_free_preserves_values.2 _ _ 2 0 (by decide)⟩⟩

theorem chainNodes_length {T : Type} (vs : List T) (i : Nat) :
    (chainNodes vs i).length = vs.length := by
  induction vs generalizing i with
  | nil => rfl
  | cons v vs ih => simp [chainNodes, ih]

theorem chainNodes_append {T : Type} (vs ws : List T) (i : Nat) :
    chainNodes (vs ++ ws) i = chainNodes vs i ++ chainNodes ws (i + vs.length) := by
  induction vs generalizing i with
  | nil => simp [chainNodes]
  | cons v vs ih =>
    have h1 : i + 1 + vs.length = i + (vs.length + 1) := by omega
    show Node.mk v i :: chainNodes (vs ++ ws) (i + 1) =
      Node.mk v i :: (chainNodes vs (i + 1) ++ chainNodes ws (i + (vs.length + 1)))
    rw [ih (i + 1), h1]

theorem chainNodes_getElem? {T : Type} (vs : List T) (i j : Nat) :
    (chainNodes vs i)[j]? = (vs[j]?).map (fun v => Node.mk v (i + j)) := by
  induction vs generalizing i j with
  | nil => simp [chainNodes]
  | cons v vs ih =>
    cases j with
    | zero => simp [chainNodes]
    | succ j =>
      simp only [chainNodes, List.getElem?_cons_succ, ih (i + 1) j]
      have : i + 1 + j = i + (j + 1) := by omega
      rw [this]

theorem push_chainState {T : Type} [Inhabited T] (vs : List T) (v : T) :
    push v vs.length (chainState vs) = some (vs.length + 1, chainState (vs ++ [v])) := by
  have hfr : (chainState vs : StackPool T).free_nodes = 0 := rfl
  rw [push_spec_grow hfr v vs.length]
  simp [chainState, chainNodes_length, chainNodes_append, chainNodes, capSeq]

theorem pushSeq_chainState {T : Type} [Inhabited T] (ws vs : List T) :
    pushSeq ws vs.length (chainState vs) = some ((vs ++ ws).length, chainState (vs ++ ws)) := by
  induction ws generalizing vs with
  | nil => simp [pushSeq]
  | cons w ws ih =>
    have hstep := push_chainState vs w
    have hih := ih (vs ++ [w])
    simp only [List.length_append, List.length_cons, List.length_nil] at hih
    simp only [pushSeq, hstep, List.append_assoc, List.singleton_append] at hih ⊢
    rw [hih]
    simp only [Option.some.injEq, Prod.mk.injEq, List.length_append, List.length_cons]
    exact ⟨by omega, trivial⟩

theorem toList_chainState {T : Type} (vs : List T) (k fuel : Nat)
    (hk : k ≤ vs.length) (hf : k ≤ fuel) :
    toList (chainState vs) k fuel = some (vs.take k).reverse := by
  induction k generalizing fuel with
  | zero => cases fuel <;> simp [toList]
  | succ j ih =>
    cases fuel with
    | zero => omega
    | succ f =>
      have hj : j < vs.length := hk
      have hnode : (chainState vs : StackPool T).node? (j + 1) =
          some (Node.mk (vs.get ⟨j, hj⟩) j) := by
        show (chainNodes vs 0)[j]? = _
        rw [chainNodes_getElem?, List.getElem?_eq_getElem hj]
        simp
      rw [toList, hnode]
      simp only []
      rw [ih f (Nat.le_of_succ_le hk) (Nat.le_of_succ_le_succ hf)]
      rw [List.take_succ, List.getElem?_eq_getElem hj, List.reverse_append]
      rfl

/-- C1: pushing any finite sequence of values, each onto the handle
returned by the previous push and starting from `new_stack()` on the
empty arena, yields a stack whose head-to-sentinel traversal is exactly
the pushed values in reverse push order. -/
theorem C1_traversal_reverse_push_order {T : Type} [Inhabited T] (vs : List T) :
    ∃ h s', pushSeq vs new_stack init = some (h, s') ∧
      traverse s' h = some vs.reverse := by
  refine ⟨vs.length, chainState vs, ?_, ?_⟩
  · have h0 := pushSeq_chainState vs []
    simpa using h0
  · show toList (chainState vs) vs.length (chainNodes vs 0).length = _
    rw [chainNodes_length]
    rw [toList_chainState vs vs.length vs.length (Nat.le_refl _) (Nat.le_refl _)]
    rw [List.take_length]

theorem chainToB_nil {T : Type} {s : StackPool T} {x t : Nat}
    (h : chainToB s x [] t = true) : x = t := by
  simpa [chainToB] using h

theorem chainToB_cons_true {T : Type} {s : StackPool T} {x i t : Nat} {rest : List Nat}
    (h : chainToB s x (i :: rest) t = true) :
    x = i ∧ i ≠ 0 ∧ ∃ y, s.next? i = some y ∧ chainToB s y rest t = true := by
  simp only [chainToB, Bool.and_eq_true, beq_iff_eq, Bool.not_eq_true',
    beq_eq_false_iff_ne] at h
  obtain ⟨⟨hx, hi⟩, hm⟩ := h
  cases hnx : s.next? i with
  | none => rw [hnx] at hm; simp at hm
  | some y =>
    rw [hnx] at hm
    exact ⟨hx, hi, y, rfl, hm⟩

theorem chainToB_cons_intro {T : Type} {s : StackPool T} {i y t : Nat} {rest : List Nat}
    (hi : i ≠ 0) (hnx : s.next? i = some y) (hr : chainToB s y rest t = true) :
    chainToB s i (i :: rest) t = true := by
  simp [chainToB, hi, hnx, hr]

theorem chainToB_mem {T : Type} {s : StackPool T} {x t : Nat} {is : List Nat}
    (h : chainToB s x is t = true) :
    ∀ i ∈ is, i ≠ 0 ∧ ∃ y, s.next? i = some y := by
  induction is generalizing x with
  | nil => intro i hi; simp at hi
  | cons j rest ih =>
    obtain ⟨rfl, hj, y, hnx, hr⟩ := chainToB_cons_true h
    intro i hi
    rcases List.mem_cons.mp hi with rfl | hi
    · exact ⟨hj, y, hnx⟩
    · exact ih hr i hi

theorem chainToB_congr {T : Type} {s s' : StackPool T} {x t : Nat} {is : List Nat}
    (hag : ∀ i ∈ is, s'.next? i = s.next? i)
    (h : chainToB s x is t = true) : chainToB s' x is t = true := by
  induction is generalizing x with
  | nil => exact h
  | cons j rest ih =>
    obtain ⟨rfl, hj, y, hnx, hr⟩ := chainToB_cons_true h
    exact chainToB_cons_intro hj
      (by rw [hag x (List.mem_cons_self x rest)]; exact hnx)
      (ih (fun i hi => hag i (List.mem_cons_of_mem x hi)) hr)

theorem chainToB_append {T : Type} {s : StackPool T} {x m t : Nat} {is fis : List Nat}
    (h1 : chainToB s x is m = true) (h2 : chainToB s m fis t = true) :
    chainToB s x (is ++ fis) t = true := by
  induction is generalizing x with
  | nil =>
    have hx := chainToB_nil h1
    subst hx
    exact h2
  | cons j rest ih =>
    obtain ⟨rfl, hj, y, hnx, hr⟩ := chainToB_cons_true h1
    exact chainToB_cons_intro hj hnx (ih hr)

theorem chainToB_retarget {T : Type} {s s' : StackPool T} {x m b : Nat} {is' : List Nat}
    (h : chainToB s x (is' ++ [b]) 0 = true)
    (hag : ∀ i ∈ is', s'.next? i = s.next? i)
    (hb : s'.next? b = some m) :
    chainToB s' x (is' ++ [b]) m = true := by
  induction is' generalizing x with
  | nil =>
    obtain ⟨rfl, hi, y, hnx, hr⟩ := chainToB_cons_true h
    exact chainToB_cons_intro hi hb (by simp [chainToB])
  | cons i rest ih =>
    obtain ⟨rfl, hi2, y, hnx, hr⟩ := chainToB_cons_true h
    exact chainToB_cons_intro hi2
      (by rw [hag x (List.mem_cons_self x rest)]; exact hnx)
      (ih hr (fun j hj => hag j (List.mem_cons_of_mem x hj)))

theorem findBottom_chain {T : Type} {s : StackPool T} {x b : Nat} {is' : List Nat}
    {fuel : Nat} (h : chainToB s x (is' ++ [b]) 0 = true)
    (hf : is'.length + 1 ≤ fuel) :
    findBottom s x fuel = some b := by
  induction is' generalizing x fuel with
  | nil =>
    obtain ⟨rfl, hi, y, hnx, hr⟩ := chainToB_cons_true h
    have hy : y = 0 := chainToB_nil hr
    subst hy
    cases fuel with
    | zero => omega
    | succ f => simp [findBottom, hnx]
  | cons i rest ih =>
    obtain ⟨rfl, hi2, y, hnx, hr⟩ := chainToB_cons_true h
    have hy0 : y ≠ 0 := by
      cases rest with
      | nil =>
        obtain ⟨rfl, hj, -⟩ := chainToB_cons_true hr
        exact hj
      | cons r rs =>
        obtain ⟨rfl, hj, -⟩ := chainToB_cons_true hr
        exact hj
    cases fuel with
    | zero => omega
    | succ f =>
      obtain ⟨y', rfl⟩ : ∃ y', y = y' + 1 := ⟨y - 1, by omega⟩
      simp only [findBottom, hnx]
      exact ih hr (by simpa using Nat.le_of_succ_le_succ hf)

theorem chainToB_length_le {T : Type} {s : StackPool T} {x t : Nat} {is : List Nat}
    (h : chainToB s x is t = true) (hnd : is.Nodup) :
    is.length ≤ s.pool.length := by
  have hsub : is ⊆ List.range' 1 s.pool.length := by
    intro i hi
    obtain ⟨hi0, y, hy⟩ := chainToB_mem h i hi
    obtain ⟨m, rfl⟩ : ∃ m, i = m + 1 := ⟨i - 1, by omega⟩
    have hm : m < s.pool.length := by
      by_contra hge
      have hnone : s.pool[m]? = none := List.getElem?_eq_none (Nat.le_of_not_lt hge)
      rw [show s.next? (m + 1) = (s.pool[m]?).map Node.next from rfl, hnone] at hy
      simp at hy
    rw [List.mem_range'_1]
    omega
  have hle := (List.subperm_of_subset hnd hsub).length_le
  simpa [List.length_range'] using hle

theorem setNext_of_next? {T : Type} {s : StackPool T} {x y : Nat}
    (h : s.next? x = some y) (m : Nat) :
    ∃ nd, s.node? x = some nd ∧
      s.setNext x m = some { s with pool := s.pool.set (x - 1) { nd with next := m } } := by
  cases x with
  | zero => simp [next?, node?] at h
  | succ i =>
    cases hnd : s.pool[i]? with
    | none =>
      rw [show s.next? (i + 1) = (s.pool[i]?).map Node.next from rfl, hnd] at h
      simp at h
    | some nd => exact ⟨nd, hnd, setNext_eq_succ hnd m⟩

theorem next?_mk_set_ne {T : Type} (s : StackPool T) (c f i : Nat) (nd : Node T)
    {k : Nat} (hk : k ≠ i + 1) :
    StackPool.next? (⟨s.pool.set i nd, c, f⟩ : StackPool T) k = s.next? k := by
  cases k with
  | zero => rfl
  | succ m =>
    have him : i ≠ m := by omega
    simp [next?, node?, List.getElem?_set_ne him]

theorem pushHandles_reuse {T : Type} [Inhabited T] (ws : List T) :
    ∀ (js : List Nat) (s : StackPool T) (h0 : Nat),
      chainToB s s.free_nodes js 0 = true → js.Nodup → ws.length ≤ js.length →
      ∃ hf sf, pushHandles ws h0 s = some (js.take ws.length, hf, sf) := by
  induction ws with
  | nil =>
    intro js s h0 _ _ _
    exact ⟨h0, s, rfl⟩
  | cons w ws ih =>
    intro js s h0 hch hnd hlen
    cases js with
    | nil => simp at hlen
    | cons j js' =>
      obtain ⟨hfr, hj0, y, hnx, hr⟩ := chainToB_cons_true hch
      obtain ⟨i, rfl⟩ : ∃ i, j = i + 1 := ⟨j - 1, by omega⟩
      obtain ⟨nd, hndj⟩ : ∃ nd, s.pool[i]? = some nd := by
        cases hq : s.pool[i]? with
        | none =>
          rw [show s.next? (i + 1) = (s.pool[i]?).map Node.next from rfl, hq] at hnx
          simp at hnx
        | some nd => exact ⟨nd, rfl⟩
      have hnd_next : nd.next = y := by
        rw [show s.next? (i + 1) = (s.pool[i]?).map Node.next from rfl, hndj] at hnx
        simpa using hnx
      have hpush := push_spec_free hfr hndj w h0
      have hag : ∀ k ∈ js',
          StackPool.next? (⟨s.pool.set i (Node.mk w h0), s.cap, nd.next⟩ : StackPool T) k =
            s.next? k := by
        intro k hk
        have hkne : k ≠ i + 1 := by
          intro hkeq
          subst hkeq
          exact (List.nodup_cons.mp hnd).1 hk
        exact next?_mk_set_ne s s.cap nd.next i (Node.mk w h0) hkne
      have hch1 : chainToB (⟨s.pool.set i (Node.mk w h0), s.cap, nd.next⟩ : StackPool T)
          (⟨s.pool.set i (Node.mk w h0), s.cap, nd.next⟩ : StackPool T).free_nodes
          js' 0 = true := by
        show chainToB _ nd.next js' 0 = true
        rw [hnd_next]
        exact chainToB_congr hag hr
      obtain ⟨hf, sf, hrec⟩ := ih js' (⟨s.pool.set i (Node.mk w h0), s.cap, nd.next⟩ :
          StackPool T) (i + 1) hch1 (List.Nodup.of_cons hnd)
        (by simpa using Nat.le_of_succ_le_succ hlen)
      refine ⟨hf, sf, ?_⟩
      simp only [pushHandles, hpush, hrec, List.length_cons, List.take_succ_cons]

/-- C5: freeing a well-formed acyclic stack returns the sentinel, makes
every node of the chain reachable from `free_nodes` (ahead of the old
free list), and a subsequent push sequence of the same length reuses
exactly those slot indices, in chain order. -/
theorem C5_free_stack_recycles {T : Type} [Inhabited T] {s : StackPool T} {x : Nat}
    {is fis : List Nat} (ws : List T)
    (hch : chainToB s x is 0 = true)
    (hfree : chainToB s s.free_nodes fis 0 = true)
    (hnd : (is ++ fis).Nodup)
    (hlen : ws.length = is.length) :
    ∃ s', free_stack x s = some (0, s') ∧
      chainToB s' s'.free_nodes (is ++ fis) 0 = true ∧
      ∃ hf sf, pushHandles ws new_stack s' = some (is, hf, sf) := by
  rcases List.eq_nil_or_concat is with rfl | ⟨is', b, rfl⟩
  · have hx0 : x = 0 := chainToB_nil hch
    subst hx0
    refine ⟨s, by simp [free_stack, empty, endIdx], by simpa using hfree, ?_⟩
    have hlen0 : ws.length = 0 := by simpa using hlen
    obtain ⟨hf, sf, hph⟩ := pushHandles_reuse ws fis s new_stack hfree
      (by simpa using hnd) (by omega)
    exact ⟨hf, sf, by simpa [hlen0] using hph⟩
  · simp only [List.concat_eq_append] at hch hnd hlen ⊢
    have hxne : x ≠ 0 := by
      cases is' with
      | nil =>
        obtain ⟨hxb, hb0, -⟩ := chainToB_cons_true hch
        rw [hxb]
        exact hb0
      | cons i rest =>
        obtain ⟨hxi, hi0, -⟩ := chainToB_cons_true hch
        rw [hxi]
        exact hi0
    have hnd_is : (is' ++ [b]).Nodup := List.Nodup.of_append_left hnd
    have hdisj : (is' ++ [b]).Disjoint fis := (List.nodup_append.mp hnd).2.2
    have hbnotin : b ∉ is' := by
      intro hbin
      exact (List.nodup_append.mp hnd_is).2.2 hbin (by simp)
    have hbfis : b ∉ fis := fun hbf => hdisj (by simp) hbf
    obtain ⟨hb0, yb, hyb⟩ := chainToB_mem hch b (by simp)
    obtain ⟨ndb, hndb, hsetb⟩ := setNext_of_next? hyb s.free_nodes
    have hfuel : is'.length + 1 ≤ s.pool.length := by
      have := chainToB_length_le hch hnd_is
      simpa using this
    have hfb : findBottom s x s.pool.length = some b := findBottom_chain hch hfuel
    have hex : empty x = false := by simp [empty, endIdx, hxne]
    have hfs : free_stack x s =
        some (0, { s with
          pool := s.pool.set (b - 1) { ndb with next := s.free_nodes },
          free_nodes := x }) := by
      simp only [free_stack, hex, Bool.false_eq_true, if_false, hfb, hsetb, endIdx]
    have hfr := setNext_frame hsetb
    have hag1 : ∀ k ∈ is',
        StackPool.next? ({ s with
          pool := s.pool.set (b - 1) { ndb with next := s.free_nodes },
          free_nodes := x }) k = s.next? k := by
      intro k hk
      have hkb : k ≠ b := fun hkeq => hbnotin (hkeq ▸ hk)
      exact hfr.2.2.2.2.1 k hkb
    have hbnew : StackPool.next? ({ s with
        pool := s.pool.set (b - 1) { ndb with next := s.free_nodes },
        free_nodes := x }) b = some s.free_nodes := hfr.2.2.2.1
    have hchain1 : chainToB ({ s with
        pool := s.pool.set (b - 1) { ndb with next := s.free_nodes },
        free_nodes := x }) x (is' ++ [b]) s.free_nodes = true :=
      chainToB_retarget hch hag1 hbnew
    have hag2 : ∀ k ∈ fis,
        StackPool.next? ({ s with
          pool := s.pool.set (b - 1) { ndb with next := s.free_nodes },
          free_nodes := x }) k = s.next? k := by
      intro k hk
      have hkb : k ≠ b := fun hkeq => hbfis (hkeq ▸ hk)
      exact hfr.2.2.2.2.1 k hkb
    have hchain2 : chainToB ({ s with
        pool := s.pool.set (b - 1) { ndb with next := s.free_nodes },
        free_nodes := x }) s.free_nodes fis 0 = true :=
      chainToB_congr hag2 hfree
    have hchainAll := chainToB_append hchain1 hchain2
    refine ⟨_, hfs, hchainAll, ?_⟩
    obtain ⟨hf, sf, hph⟩ := pushHandles_reuse ws ((is' ++ [b]) ++ fis)
      ({ s with
        pool := s.pool.set (b - 1) { ndb with next := s.free_nodes },
        free_nodes := x }) new_stack hchainAll hnd
      (by rw [hlen, List.length_append (is' ++ [b]) fis]; omega)
    have htake : ((is' ++ [b]) ++ fis).take ws.length = is' ++ [b] := by
      rw [hlen]
      exact List.take_left _ _
    rw [htake] at hph
    exact ⟨hf, sf, hph⟩

/-- Witness for C5 at a concrete two-node arena holding the chain
2 → 1 → sentinel with an empty free list: freeing it and pushing two
fresh values reuses slots 2 then 1. -/
theorem C5_free_stack_recycles_witness :
    (chainToB (StackPool.mk [Node.mk (10 : Nat) 0, Node.mk 20 1] 2 0) 2 [2, 1] 0 = true) ∧
    (chainToB (StackPool.mk [Node.mk (10 : Nat) 0, Node.mk 20 1] 2 0)
      (StackPool.mk [Node.mk (10 : Nat) 0, Node.mk 20 1] 2 0).free_nodes [] 0 = true) ∧
    (([2, 1] ++ ([] : List Nat)).Nodup) ∧
    (([30, 40] : List Nat).length = [2, 1].length) ∧
    ∃ s', free_stack 2 (StackPool.mk [Node.mk (10 : Nat) 0, Node.mk 20 1] 2 0) =
        some (0, s') ∧
      chainToB s' s'.free_nodes ([2, 1] ++ []) 0 = true ∧
      ∃ hf sf, pushHandles [30, 40] new_stack s' = some ([2, 1], hf, sf) :=
  ⟨by decide, by decide, by decide, by decide,
    C5_free_stack_recycles [30, 40] (by decide) (by decide) (by decide) (by decide)⟩
